import Mathlib

/-!
Verification of the isolation game-playing agent (`game_agent.py`).

The search code (`dls`, `minimax`, `alphabeta`), the heuristics
(`percent_occupation`, `distance_to_opponent`, `third_heuristic`,
`second_heuristic`, `custom_score`) and the move-selection entry point
(`CustomPlayer.get_move`) are translated from the source.  The board
collaborator (`isolation.Board`) is not part of the source tree; it is
modelled from the specification (its defs carry a `Modelled from the spec`
doc comment).

Modelling conventions:
* Scores are extended rationals `WithBot (WithTop ℚ)`: Python's
  `float("-inf")` / `float("inf")` become `⊥` / `⊤`, and finite heuristic
  values are exact rationals.
* The wall clock (`self.time_left`) is a function from the number of polls
  performed so far to the remaining milliseconds; raising `Timeout` is
  modelled by the `Except Unit` error channel, and each timed search
  function threads the poll counter.
* `get_move` can return Python `None` (it does when the very first search
  depth times out); its result type is therefore `Except Unit (Option Move)`
  where `Except.error ()` models an uncaught exception (calling the `None`
  search callable), `Except.ok none` models returning Python `None`, and
  `Except.ok (some m)` models returning the tuple `m`.
-/

abbrev Cell : Type := ℤ × ℤ

abbrev Move : Type := ℤ × ℤ

abbrev Score : Type := WithBot (WithTop ℚ)

def toScore (q : ℚ) : Score := ((q : WithTop ℚ) : Score)

/-- The "no move" sentinel `(-1, -1)` used throughout `game_agent.py`. -/
def noMove : Move := (-1, -1)

/-- Modelled from the spec: the Board collaborator's game state — board
dimensions, the set of unoccupied (blank) cells, the two players' current
positions (`none` before a player's first move), and whose turn it is
(`active = true` means player 1 is to move). -/
structure Game where
  width : ℤ
  height : ℤ
  blanks : List Cell
  loc1 : Option Cell
  loc2 : Option Cell
  active : Bool
deriving DecidableEq

/-- Modelled from the spec: the L-shaped (knight) move offsets of the
isolation variant.  No claim depends on the exact offset set, only on
legal-move enumeration being a deterministic finite list. -/
def knightDirs : List Cell :=
  [(-2, -1), (-2, 1), (-1, -2), (-1, 2), (1, -2), (1, 2), (2, -1), (2, 1)]

/-- Modelled from the spec: `Board.get_player_location`. -/
def get_player_location (g : Game) (p : Bool) : Option Cell :=
  if p then g.loc1 else g.loc2

/-- `Board.get_opponent`: the other player handle. -/
def get_opponent (p : Bool) : Bool := !p

/-- Modelled from the spec: `Board.get_legal_moves(player)`.  A player not
yet on the board may move to any blank cell (hence, on the very first move,
the legal-move count equals the total cell count); a placed player moves by
knight jumps onto blank cells. -/
def get_legal_moves (g : Game) (p : Bool) : List Cell :=
  match get_player_location g p with
  | none => g.blanks
  | some l =>
      (knightDirs.map (fun d => (l.1 + d.1, l.2 + d.2))).filter
        (fun c => g.blanks.contains c)

/-- `Board.get_legal_moves()` with its default argument: the active player. -/
def legalMoves (g : Game) : List Cell := get_legal_moves g g.active

/-- Modelled from the spec: `Board.forecast_move` — the forecasted child
state has the moved player on the target cell, one fewer blank cell, and
the turn flipped. -/
def forecast_move (g : Game) (m : Cell) : Game :=
  { g with
      blanks := g.blanks.erase m
      loc1 := if g.active then some m else g.loc1
      loc2 := if g.active then g.loc2 else some m
      active := !g.active }

/-- `Board.get_blank_spaces`. -/
def get_blank_spaces (g : Game) : List Cell := g.blanks

/-- Modelled from the spec: `Board.is_loser(player)` — a player has lost
when they are the side to move and no legal move remains (spec §1 "loses
when no legal move remains", §4.2 "the side to move has lost"). -/
def is_loser (g : Game) (p : Bool) : Bool :=
  (g.active == p) && (legalMoves g).isEmpty

/-- Modelled from the spec: `Board.is_winner(player)` — a player has won
when the opponent is the side to move and has no legal move remaining. -/
def is_winner (g : Game) (p : Bool) : Bool :=
  (g.active == !p) && (legalMoves g).isEmpty

/-- `percent_occupation` from the source: note that it returns
`len(game.get_blank_spaces()) / (width * height)`, the fraction of BLANK
cells, despite its docstring advertising the occupied percentage. -/
def percent_occupation (g : Game) : ℚ :=
  ((g.blanks.length : ℚ)) / (((g.width * g.height : ℤ) : ℚ))

/-- `distance_to_opponent` from the source: taxicab distance between the
two players' positions.  The source unpacks the locations and would raise
if a player were unplaced; the `0` in the unreachable branch totalizes. -/
def distance_to_opponent (g : Game) (p : Bool) : ℤ :=
  match get_player_location g p, get_player_location g (get_opponent p) with
  | some x, some y => |x.1 - y.1| + |x.2 - y.2|
  | _, _ => 0

/-- `third_heuristic` from the source:
`own_moves + distance - occupation - opp_moves`. -/
def third_heuristic (g : Game) (p : Bool) : ℚ :=
  ((get_legal_moves g p).length : ℚ) + ((distance_to_opponent g p : ℤ) : ℚ)
    - percent_occupation g - ((get_legal_moves g (get_opponent p)).length : ℚ)

/-- `second_heuristic` from the source: `own_moves / occupation`. -/
def second_heuristic (g : Game) (p : Bool) : ℚ :=
  ((get_legal_moves g p).length : ℚ) / percent_occupation g

/-- `custom_score` from the source: terminal shortcut, then the default
(third) heuristic. -/
def custom_score (g : Game) (p : Bool) : Score :=
  if is_loser g p then ⊥
  else if is_winner g p then ⊤
  else toScore (third_heuristic g p)

-- A concrete 5×5 position used by several witnesses/counterexamples:
-- 10 blank cells (15 occupied), player 1 on (0,0), player 2 on (1,2),
-- player 1 to move.  Player 1 has 1 legal move ((2,1)), player 2 has 5.
def gB : Game :=
  { width := 5, height := 5
    blanks := [(2, 1), (3, 1), (3, 3), (2, 0), (2, 4),
               (0, 4), (4, 0), (4, 1), (4, 2), (4, 4)]
    loc1 := some (0, 0)
    loc2 := some (1, 2)
    active := true }

/-! ### Search core: plain minimax (`CustomPlayer.dls`, `CustomPlayer.minimax`) -/

/-- The maximizing-layer loop of `dls`: `if v > bestValue: bestValue, bestMove = v, child`. -/
def dlsMaxLoop (f : Cell → Score) : List Cell → Score → Move → Score × Move
  | [], bv, bm => (bv, bm)
  | c :: cs, bv, bm =>
    if bv < f c then dlsMaxLoop f cs (f c) c else dlsMaxLoop f cs bv bm

/-- The minimizing-layer loop of `dls`: `if v < bestValue: bestValue, bestMove = v, child`. -/
def dlsMinLoop (f : Cell → Score) : List Cell → Score → Move → Score × Move
  | [], bv, bm => (bv, bm)
  | c :: cs, bv, bm =>
    if f c < bv then dlsMinLoop f cs (f c) c else dlsMinLoop f cs bv bm

/-- `CustomPlayer.dls` from the source: depth-limited minimax.  `p` is the
designated player (`self`); the score function is the default
`custom_score`.  Note: `dls` performs no time polling (the source never
consults `self.time_left` inside `dls`). -/
def dls (p : Bool) : ℕ → Game → Bool → Score × Move
  | 0, g, _ => (custom_score g p, noMove)
  | d + 1, g, maxP =>
    if maxP then
      dlsMaxLoop (fun c => (dls p d (forecast_move g c) false).1) (legalMoves g) ⊥ noMove
    else
      dlsMinLoop (fun c => (dls p d (forecast_move g c) true).1) (legalMoves g) ⊤ noMove

/-- `CustomPlayer.minimax` from the source: poll the clock once, then call
`dls`.  `clock k` is the value `self.time_left()` returns at the `k`-th
poll; the returned counter records that one poll happened. -/
def minimax (clock : ℕ → ℚ) (th : ℚ) (p : Bool) (g : Game) (d : ℕ) (maxP : Bool)
    (k : ℕ) : Except Unit ((Score × Move) × ℕ) :=
  if clock k < th then .error () else .ok ((dls p d g maxP), k + 1)

/-! ### Search core: alpha-beta (`CustomPlayer.alphabeta`)

`alphabetaNT` is the no-timeout (pure) semantics; `alphabeta` is the timed
version, polling the clock once at every node entry exactly as the source
does.  `alphabeta_ok_val` below proves that whenever the timed version
completes it returns the pure value. -/

/-- Maximizing-layer loop of `alphabeta` (pure): update best on `v > bestValue`
(the kept move is the CHILD), tighten `alpha`, break on `beta <= alpha`. -/
def abMaxLoopNT (f : Cell → Score → Score × Move) (β : Score) :
    List Cell → Score → Move → Score → Score × Move
  | [], bv, bm, _ => (bv, bm)
  | c :: cs, bv, bm, a =>
    let v := (f c a).1
    let bv' := if bv < v then v else bv
    let bm' := if bv < v then c else bm
    let a' := a ⊔ bv'
    if β ≤ a' then (bv', bm') else abMaxLoopNT f β cs bv' bm' a'

/-- Minimizing-layer loop of `alphabeta` (pure): update best on `v < bestValue`.
Note the source keeps `move` — the move returned by the recursive call — not
`child`; this is embedded faithfully. -/
def abMinLoopNT (f : Cell → Score → Score × Move) (α : Score) :
    List Cell → Score → Move → Score → Score × Move
  | [], bv, bm, _ => (bv, bm)
  | c :: cs, bv, bm, b =>
    let r := f c b
    let bv' := if r.1 < bv then r.1 else bv
    let bm' := if r.1 < bv then r.2 else bm
    let b' := b ⊓ bv'
    if b' ≤ α then (bv', bm') else abMinLoopNT f α cs bv' bm' b'

/-- `CustomPlayer.alphabeta` from the source, with the timeout poll removed
(the semantics of a run in which no timeout occurs). -/
def alphabetaNT (p : Bool) : ℕ → Game → Score → Score → Bool → Score × Move
  | 0, g, _, _, _ => (custom_score g p, noMove)
  | d + 1, g, α, β, maxP =>
    let ms := legalMoves g
    if ms.isEmpty then (custom_score g p, noMove)
    else if maxP then
      abMaxLoopNT (fun c a => alphabetaNT p d (forecast_move g c) a β false) β ms ⊥ noMove α
    else
      abMinLoopNT (fun c b => alphabetaNT p d (forecast_move g c) α b true) α ms ⊤ noMove β

/-- Timed maximizing-layer loop: a timeout in any child propagates. -/
def abMaxLoopT (f : Cell → Score → ℕ → Except Unit ((Score × Move) × ℕ)) (β : Score) :
    List Cell → Score → Move → Score → ℕ → Except Unit ((Score × Move) × ℕ)
  | [], bv, bm, _, k => .ok ((bv, bm), k)
  | c :: cs, bv, bm, a, k =>
    match f c a k with
    | .error e => .error e
    | .ok (r, k') =>
      let bv' := if bv < r.1 then r.1 else bv
      let bm' := if bv < r.1 then c else bm
      let a' := a ⊔ bv'
      if β ≤ a' then .ok ((bv', bm'), k') else abMaxLoopT f β cs bv' bm' a' k'

/-- Timed minimizing-layer loop. -/
def abMinLoopT (f : Cell → Score → ℕ → Except Unit ((Score × Move) × ℕ)) (α : Score) :
    List Cell → Score → Move → Score → ℕ → Except Unit ((Score × Move) × ℕ)
  | [], bv, bm, _, k => .ok ((bv, bm), k)
  | c :: cs, bv, bm, b, k =>
    match f c b k with
    | .error e => .error e
    | .ok (r, k') =>
      let bv' := if r.1 < bv then r.1 else bv
      let bm' := if r.1 < bv then r.2 else bm
      let b' := b ⊓ bv'
      if b' ≤ α then .ok ((bv', bm'), k') else abMinLoopT f α cs bv' bm' b' k'

/-- `CustomPlayer.alphabeta` from the source: the clock is polled first at
EVERY node entry (`if self.time_left() < self.TIMER_THRESHOLD: raise Timeout()`),
before the depth-0/no-moves base case. -/
def alphabeta (clock : ℕ → ℚ) (th : ℚ) (p : Bool) :
    ℕ → Game → Score → Score → Bool → ℕ → Except Unit ((Score × Move) × ℕ)
  | 0, g, _, _, _, k =>
    if clock k < th then .error () else .ok ((custom_score g p, noMove), k + 1)
  | d + 1, g, α, β, maxP, k =>
    if clock k < th then .error ()
    else
      let ms := legalMoves g
      if ms.isEmpty then .ok ((custom_score g p, noMove), k + 1)
      else if maxP then
        abMaxLoopT (fun c a k' => alphabeta clock th p d (forecast_move g c) a β false k')
          β ms ⊥ noMove α (k + 1)
      else
        abMinLoopT (fun c b k' => alphabeta clock th p d (forecast_move g c) α b true k')
          α ms ⊤ noMove β (k + 1)

/-! ### Move selection entry point (`CustomPlayer.get_move`) -/

/-- The configuration part of `CustomPlayer.__init__`.  The score function
is fixed to its default `custom_score` (the claims concern the default). -/
structure CustomPlayer where
  search_depth : ℕ
  iterative : Bool
  method : String
  TIMER_THRESHOLD : ℚ

/-- One invocation of the dispatched search callable, exactly as
`get_move` performs it: `search(game, depth, True)`.  For
`method == 'minimax'` the third positional argument is
`maximizing_player=True`; for `method == 'alphabeta'` the third positional
argument is `alpha` — i.e. the source passes `alpha=True`, which Python
compares as the number `1` — with `beta` and `maximizing_player` left at
their defaults.  The designated player is the active player of the root
state (`self` is to move when `get_move` is called). -/
def search_step (P : CustomPlayer) (clock : ℕ → ℚ) (g : Game) (d k : ℕ) :
    Except Unit ((Score × Move) × ℕ) :=
  if P.method = "minimax" then minimax clock P.TIMER_THRESHOLD g.active g d true k
  else alphabeta clock P.TIMER_THRESHOLD g.active d g (toScore 1) ⊤ true k

/-- The iterative-deepening loop `for i in itertools.count(): v, move =
search(game, i+1, True)`: runs depth `j+1` next, remembers the move of the
last completed depth, and returns it when a `Timeout` propagates out of the
in-progress call.  The source loop is unbounded; `fuel` bounds the
modelled recursion and is irrelevant whenever a timeout occurs within
`fuel` iterations (every theorem below hypothesizes that). -/
def iterSearch (S : ℕ → ℕ → Except Unit ((Score × Move) × ℕ)) :
    ℕ → ℕ → ℕ → Option Move → Except Unit (Option Move)
  | 0, _, _, best => .ok best
  | fuel + 1, j, k, best =>
    match S (j + 1) k with
    | .error _ => .ok best
    | .ok (r, k') => iterSearch S fuel (j + 1) k' (some r.2)

/-- The opening move `(int(game.width/2), int(game.height/2))`. -/
def center (g : Game) : Move := (g.width / 2, g.height / 2)

/-- `CustomPlayer.get_move` from the source.  Result convention:
`.error ()` = an uncaught exception escapes (the `None` search callable is
invoked for an unrecognized method); `.ok none` = Python `None` is
returned (the initial `move = None` was never overwritten); `.ok (some m)`
= the move `m` is returned. -/
def get_move (P : CustomPlayer) (g : Game) (legal_moves : List Move)
    (clock : ℕ → ℚ) (fuel k : ℕ) : Except Unit (Option Move) :=
  if legal_moves.isEmpty then .ok (some noMove)
  else if ((legalMoves g).length : ℤ) = g.width * g.height then .ok (some (center g))
  else if P.method = "minimax" ∨ P.method = "alphabeta" then
    (if P.iterative then iterSearch (search_step P clock g) fuel 0 k none
     else
       match search_step P clock g P.search_depth k with
       | .error _ => .ok none
       | .ok (r, _) => .ok (some r.2))
  else .error ()

/-- The (score, move) pair a single fixed-depth search at depth `d` yields
when no timeout occurs, per the dispatch and argument binding of
`get_move` (see `search_step`). -/
def fixed_depth_result (P : CustomPlayer) (g : Game) (d : ℕ) : Score × Move :=
  if P.method = "minimax" then dls g.active d g true
  else alphabetaNT g.active d g (toScore 1) ⊤ true

/-! ### Concrete positions and configurations used by witnesses -/

/-- All cells of a `w × h` board. -/
def allCells (w h : ℕ) : List Cell :=
  (List.range w).flatMap fun r => (List.range h).map fun c => ((r : ℤ), (c : ℤ))

/-- A fresh, fully blank 7×7 board, nobody placed, player 1 to move. -/
def g7 : Game :=
  { width := 7, height := 7, blanks := allCells 7 7
    loc1 := none, loc2 := none, active := true }

/-- A 5×5 position with player 2 (the minimizer's mover) to move and
exactly one legal move, `(2,2)`; used to exhibit the minimizing-layer
best-move bug of `alphabeta`. -/
def gC4 : Game :=
  { width := 5, height := 5, blanks := [(2, 2)]
    loc1 := some (0, 0), loc2 := some (0, 1), active := false }

/-- A 5×5 position in which the player to move (player 1) has no legal
moves: player 1 has lost. -/
def gW : Game :=
  { width := 5, height := 5, blanks := []
    loc1 := some (0, 0), loc2 := some (0, 1), active := true }

/-- A default-configured player, method `'minimax'`, iterative deepening
on, `TIMER_THRESHOLD = 10`. -/
def Pmm : CustomPlayer :=
  { search_depth := 3, iterative := true, method := "minimax", TIMER_THRESHOLD := 10 }

/-- A player configured with an unrecognized search method. -/
def Pbad : CustomPlayer :=
  { search_depth := 3, iterative := true, method := "dfs", TIMER_THRESHOLD := 10 }

/-- A clock losing 60 ms per poll from 100 ms: polls 0 and 1 are above the
10 ms threshold, poll 2 is below — depths 1 and 2 complete, depth 3 times
out (for `method='minimax'`, which polls once per depth). -/
def clock6 (k : ℕ) : ℚ := 100 - 60 * k

/-- The `(score, move)` results of the completed depths of the
`clock6`-driven iterative run on `gB`. -/
def res6 (i : ℕ) : Score × Move := dls gB.active (i + 1) gB true

/-! ### Alpha-beta value correctness (fail-soft, Knuth–Moore style) -/

/-- The fail-soft guarantee a search with window `(lo, hi)` gives about the
true value `v` when it returns `r`: exact inside the window, an upper bound
on `v` when failing low, a lower bound when failing high. -/
def KM (r v lo hi : Score) : Prop :=
  (r ≤ lo → v ≤ r) ∧ (lo < r → r < hi → r = v) ∧ (hi ≤ r → r ≤ v)

lemma KM_refl (r lo hi : Score) : KM r r lo hi :=
  ⟨fun _ => le_refl r, fun _ _ => rfl, fun _ => le_refl r⟩

lemma ite_lt_sup (x y : Score) : (if x < y then y else x) = x ⊔ y := by
  rcases lt_or_le x y with h | h
  · rw [if_pos h, sup_eq_right.2 h.le]
  · rw [if_neg (not_lt.2 h), sup_eq_left.2 h]

lemma ite_lt_inf (x y : Score) : (if y < x then y else x) = x ⊓ y := by
  rcases lt_or_le y x with h | h
  · rw [if_pos h, inf_eq_right.2 h.le]
  · rw [if_neg (not_lt.2 h), inf_eq_left.2 h]

lemma le_foldl_sup (f : Cell → Score) :
    ∀ (cs : List Cell) (x : Score), x ≤ cs.foldl (fun b c => b ⊔ f c) x := by
  intro cs
  induction cs with
  | nil => intro x; exact le_refl x
  | cons c cs ih => intro x; exact le_trans le_sup_left (ih (x ⊔ f c))

lemma foldl_inf_le (f : Cell → Score) :
    ∀ (cs : List Cell) (x : Score), cs.foldl (fun b c => b ⊓ f c) x ≤ x := by
  intro cs
  induction cs with
  | nil => intro x; exact le_refl x
  | cons c cs ih => intro x; exact le_trans (ih (x ⊓ f c)) inf_le_left

lemma dlsMaxLoop_fst (f : Cell → Score) :
    ∀ (cs : List Cell) (bv : Score) (bm : Move),
      (dlsMaxLoop f cs bv bm).1 = cs.foldl (fun b c => b ⊔ f c) bv := by
  intro cs
  induction cs with
  | nil => intro bv bm; rfl
  | cons c cs ih =>
    intro bv bm
    simp only [dlsMaxLoop, List.foldl_cons]
    rcases lt_or_le bv (f c) with h | h
    · rw [if_pos h, ih, sup_eq_right.2 h.le]
    · rw [if_neg (not_lt.2 h), ih, sup_eq_left.2 h]

lemma dlsMinLoop_fst (f : Cell → Score) :
    ∀ (cs : List Cell) (bv : Score) (bm : Move),
      (dlsMinLoop f cs bv bm).1 = cs.foldl (fun b c => b ⊓ f c) bv := by
  intro cs
  induction cs with
  | nil => intro bv bm; rfl
  | cons c cs ih =>
    intro bv bm
    simp only [dlsMinLoop, List.foldl_cons]
    rcases lt_or_le (f c) bv with h | h
    · rw [if_pos h, ih, inf_eq_right.2 h.le]
    · rw [if_neg (not_lt.2 h), ih, inf_eq_left.2 h]

/-- Invariant of the maximizing alpha-beta loop: relative to the window
`(α, β)`, the accumulator `bv` carries a fail-soft guarantee about the
true maximum `P` of the already processed children, the running alpha is
`α ⊔ bv`, and each remaining child search is fail-soft for its window.
Then the loop result is fail-soft for the true maximum over all children. -/
lemma abMaxLoopNT_KM (fab : Cell → Score → Score × Move) (fd : Cell → Score)
    (α β : Score)
    (hchild : ∀ c a, α ≤ a → a < β → KM (fab c a).1 (fd c) a β) :
    ∀ (cs : List Cell) (P bv : Score) (bm : Move) (a : Score),
      a = α ⊔ bv → a < β → (bv ≤ α → P ≤ bv) → (α < bv → bv = P) →
      KM (abMaxLoopNT fab β cs bv bm a).1 (cs.foldl (fun x c => x ⊔ fd c) P) α β := by
  intro cs
  induction cs with
  | nil =>
    intro P bv bm a ha haβ h1 h2
    have hbva : bv ≤ a := ha ▸ le_sup_right
    refine ⟨fun h => h1 h, fun hlo _ => h2 hlo, fun h => absurd (h.trans hbva) (not_le.2 haβ)⟩
  | cons c cs ih =>
    intro P bv bm a ha haβ h1 h2
    have hαa : α ≤ a := ha ▸ le_sup_left
    have hbva : bv ≤ a := ha ▸ le_sup_right
    have hαβ : α < β := lt_of_le_of_lt hαa haβ
    obtain ⟨G1, G2, G3⟩ := hchild c a hαa haβ
    simp only [abMaxLoopNT, List.foldl_cons, ite_lt_sup bv (fab c a).1]
    set v := (fab c a).1 with hv
    set w := bv ⊔ v with hw
    have haw : a ⊔ w = α ⊔ w := by
      rw [ha, hw, sup_assoc, ← sup_assoc bv bv v, sup_idem]
    by_cases hbr : β ≤ a ⊔ w
    · rw [if_pos hbr]
      have hβw : β ≤ w := by
        rcases le_sup_iff.1 hbr with h | h
        · exact absurd haβ (not_lt.2 h)
        · exact h
      have hβv : β ≤ v := by
        rcases le_sup_iff.1 hβw with h | h
        · exact absurd (lt_of_le_of_lt hbva haβ) (not_lt.2 h)
        · exact h
      have hwv : w = v := by
        rw [hw]
        exact sup_eq_right.2 ((hbva.trans haβ.le).trans hβv)
      refine ⟨fun hrα => absurd (hβw.trans hrα) (not_le.2 hαβ),
              fun _ h2' => absurd h2' (not_lt.2 hβw), fun _ => ?_⟩
      calc (w, if bv < v then c else bm).1 = v := hwv
        _ ≤ fd c := G3 hβv
        _ ≤ P ⊔ fd c := le_sup_right
        _ ≤ cs.foldl (fun x c => x ⊔ fd c) (P ⊔ fd c) := le_foldl_sup fd cs (P ⊔ fd c)
    · rw [if_neg hbr]
      have haβ' : a ⊔ w < β := not_le.1 hbr
      have haβ'' : α ⊔ w < β := haw ▸ haβ'
      refine (?_ : KM _ _ _ _)
      have h1' : w ≤ α → P ⊔ fd c ≤ w := by
        intro hwα
        have hbvα : bv ≤ α := le_trans le_sup_left (hw ▸ hwα)
        have hvα : v ≤ α := le_trans le_sup_right (hw ▸ hwα)
        have hfd : fd c ≤ v := G1 (hvα.trans hαa)
        exact sup_le ((h1 hbvα).trans (hw ▸ le_sup_left))
          (hfd.trans (hw ▸ le_sup_right))
      have h2' : α < w → w = P ⊔ fd c := by
        intro hαw
        rcases lt_or_le bv v with hlt | hle
        · have hwv : w = v := hw.trans (sup_eq_right.2 hlt.le)
          have hαv : α < v := hwv ▸ hαw
          have hav : a < v := by rw [ha]; exact sup_lt_iff.2 ⟨hαv, hlt⟩
          have hwβ : w < β := lt_of_le_of_lt le_sup_right haβ'
          have hvβ : v < β := hwv ▸ hwβ
          have hveq : v = fd c := G2 hav hvβ
          have hPv : P ≤ v := by
            rcases le_or_lt bv α with hbvα | hαbv
            · exact (h1 hbvα).trans hlt.le
            · exact (h2 hαbv).symm.trans_le hlt.le
          rw [hwv, hveq]
          exact (sup_eq_right.2 (hveq ▸ hPv)).symm
        · have hwbv : w = bv := hw.trans (sup_eq_left.2 hle)
          have hαbv : α < bv := hwbv ▸ hαw
          have habv : a = bv := by rw [ha]; exact sup_eq_right.2 hαbv.le
          have hfd : fd c ≤ v := G1 (hle.trans habv.ge)
          have hPbv : bv = P := h2 hαbv
          rw [hwbv, ← hPbv]
          exact (sup_eq_left.2 ((hfd.trans hle))).symm
      have := ih (P ⊔ fd c) w (if bv < v then c else bm) (a ⊔ w) (haw) haβ' h1' h2'
      exact this

/-- Dual invariant for the minimizing alpha-beta loop. -/
lemma abMinLoopNT_KM (fab : Cell → Score → Score × Move) (fd : Cell → Score)
    (α β : Score)
    (hchild : ∀ c b, α < b → b ≤ β → KM (fab c b).1 (fd c) α b) :
    ∀ (cs : List Cell) (P bv : Score) (bm : Move) (b : Score),
      b = β ⊓ bv → α < b → (β ≤ bv → bv ≤ P) → (bv < β → bv = P) →
      KM (abMinLoopNT fab α cs bv bm b).1 (cs.foldl (fun x c => x ⊓ fd c) P) α β := by
  intro cs
  induction cs with
  | nil =>
    intro P bv bm b hb hαb h1 h2
    have hbbv : b ≤ bv := hb ▸ inf_le_right
    refine ⟨fun h => absurd (hbbv.trans h) (not_le.2 hαb), fun _ hhi => h2 hhi,
            fun h => h1 h⟩
  | cons c cs ih =>
    intro P bv bm b hb hαb h1 h2
    have hbβ : b ≤ β := hb ▸ inf_le_left
    have hbbv : b ≤ bv := hb ▸ inf_le_right
    have hαβ : α < β := hαb.trans_le hbβ
    obtain ⟨G1, G2, G3⟩ := hchild c b hαb hbβ
    simp only [abMinLoopNT, List.foldl_cons, ite_lt_inf bv (fab c b).1]
    set v := (fab c b).1 with hv
    set w := bv ⊓ v with hw
    have hbw : b ⊓ w = β ⊓ w := by
      rw [hb, hw, inf_assoc, ← inf_assoc bv bv v, inf_idem]
    by_cases hbr : b ⊓ w ≤ α
    · rw [if_pos hbr]
      have hwα : w ≤ α := by
        rcases inf_le_iff.1 hbr with h | h
        · exact absurd hαb (not_lt.2 h)
        · exact h
      have hvα : v ≤ α := by
        rcases inf_le_iff.1 (hw ▸ hwα) with h | h
        · exact absurd (hαb.trans_le hbbv) (not_lt.2 h)
        · exact h
      have hwv : w = v := by
        rw [hw]
        exact inf_eq_right.2 (hvα.trans (hαb.trans_le hbbv).le)
      refine ⟨fun _ => ?_, fun h1' _ => absurd (hwv ▸ hvα) (not_le.2 h1'),
              fun h3' => absurd ((hwv ▸ hvα).trans_lt hαβ) (not_lt.2 h3')⟩
      calc cs.foldl (fun x c => x ⊓ fd c) (P ⊓ fd c)
          ≤ P ⊓ fd c := foldl_inf_le fd cs (P ⊓ fd c)
        _ ≤ fd c := inf_le_right
        _ ≤ v := G1 hvα
        _ = (w, if v < bv then (fab c b).2 else bm).1 := hwv.symm
    · rw [if_neg hbr]
      have hαb' : α < b ⊓ w := not_le.1 hbr
      have h1' : β ≤ w → w ≤ P ⊓ fd c := by
        intro hβw
        have hβbv : β ≤ bv := le_trans hβw (hw ▸ inf_le_left)
        have hβv : β ≤ v := le_trans hβw (hw ▸ inf_le_right)
        have hbeq : b = β := hb.trans (inf_eq_left.2 hβbv)
        have hfd : v ≤ fd c := G3 (hbeq ▸ hβv)
        exact le_inf ((hw ▸ inf_le_left).trans (h1 hβbv))
          ((hw ▸ inf_le_right).trans hfd)
      have h2' : w < β → w = P ⊓ fd c := by
        intro hwβ
        rcases lt_or_le v bv with hlt | hle
        · have hwv : w = v := hw.trans (inf_eq_right.2 hlt.le)
          have hvβ : v < β := hwv ▸ hwβ
          have hαv : α < v := by
            have : α < w := lt_of_lt_of_le hαb' inf_le_right
            exact hwv ▸ this
          have hvb : v < b := by rw [hb]; exact lt_inf_iff.2 ⟨hvβ, hlt⟩
          have hveq : v = fd c := G2 hαv hvb
          have hvP : v ≤ P := by
            rcases le_or_lt β bv with hβbv | hbvβ
            · exact (hlt.trans_le (h1 hβbv)).le
            · exact (hlt.trans_eq (h2 hbvβ)).le
          rw [hwv, hveq]
          exact (inf_eq_right.2 (hveq ▸ hvP)).symm
        · have hwbv : w = bv := hw.trans (inf_eq_left.2 hle)
          have hbvβ : bv < β := hwbv ▸ hwβ
          have hbeq : b = bv := hb.trans (inf_eq_right.2 hbvβ.le)
          have hfd : v ≤ fd c := G3 (hbeq ▸ hle)
          have hPbv : bv = P := h2 hbvβ
          rw [hwbv, ← hPbv]
          exact (inf_eq_left.2 (hle.trans hfd)).symm
      exact ih (P ⊓ fd c) w (if v < bv then (fab c b).2 else bm) (b ⊓ w) hbw hαb' h1' h2'

lemma beq_not_of_beq_false {a p : Bool} (h : (a == p) = false) : (a == !p) = true := by
  revert h; cases a <;> cases p <;> decide

lemma beq_not_of_beq_true {a p : Bool} (h : (a == p) = true) : ((!a) == p) = false := by
  revert h; cases a <;> cases p <;> decide

lemma beq_of_beq_not_false {a p : Bool} (h : (a == p) = false) : ((!a) == p) = true := by
  revert h; cases a <;> cases p <;> decide

/-- The main fail-soft correctness theorem: at every node whose layer
parity matches "the designated player is to move exactly at maximizing
layers", the alpha-beta result satisfies the Knuth–Moore guarantee with
respect to the plain minimax (`dls`) value. -/
theorem alphabetaNT_KM :
    ∀ (d : ℕ) (g : Game) (p : Bool) (α β : Score) (maxP : Bool),
      α < β → maxP = (g.active == p) →
      KM (alphabetaNT p d g α β maxP).1 (dls p d g maxP).1 α β := by
  intro d
  induction d with
  | zero => intro g p α β maxP _ _; exact KM_refl _ _ _
  | succ d ih =>
    intro g p α β maxP hαβ hinv
    by_cases hms : (legalMoves g).isEmpty
    · have hnil : legalMoves g = [] := List.isEmpty_iff.1 hms
      cases maxP
      · -- minimizing layer with no moves: dls returns ⊤, alphabeta returns
        -- the score, which is ⊤ because `is_winner` holds.
        have hbeq : (g.active == p) = false := hinv.symm
        have hscore : custom_score g p = ⊤ := by
          unfold custom_score is_loser is_winner
          rw [hbeq, hms, beq_not_of_beq_false hbeq]
          simp
        simp only [alphabetaNT, dls, if_pos hms, hnil, if_neg Bool.false_ne_true,
          dlsMinLoop, hscore]
        exact KM_refl _ _ _
      · have hbeq : (g.active == p) = true := hinv.symm
        have hscore : custom_score g p = ⊥ := by
          unfold custom_score is_loser
          rw [hbeq, hms]
          simp
        simp only [alphabetaNT, dls, if_pos hms, hnil, if_true, dlsMaxLoop, hscore]
        exact KM_refl _ _ _
    · cases maxP
      · have hbeq : (g.active == p) = false := hinv.symm
        have hchild : ∀ c b, α < b → b ≤ β →
            KM (alphabetaNT p d (forecast_move g c) α b true).1
              (dls p d (forecast_move g c) true).1 α b := by
          intro c b hαb _
          exact ih (forecast_move g c) p α b true hαb
            (beq_of_beq_not_false hbeq).symm
        have hmain := abMinLoopNT_KM
          (fun c b => alphabetaNT p d (forecast_move g c) α b true)
          (fun c => (dls p d (forecast_move g c) true).1) α β hchild
          (legalMoves g) ⊤ ⊤ noMove β (inf_top_eq β).symm hαβ
          (fun _ => le_refl ⊤) (fun h => absurd h (not_top_lt))
        simp only [alphabetaNT, dls, if_neg hms, if_neg Bool.false_ne_true,
          dlsMinLoop_fst]
        exact hmain
      · have hbeq : (g.active == p) = true := hinv.symm
        have hchild : ∀ c a, α ≤ a → a < β →
            KM (alphabetaNT p d (forecast_move g c) a β false).1
              (dls p d (forecast_move g c) false).1 a β := by
          intro c a _ haβ
          exact ih (forecast_move g c) p a β false haβ
            (beq_not_of_beq_true hbeq).symm
        have hmain := abMaxLoopNT_KM
          (fun c a => alphabetaNT p d (forecast_move g c) a β false)
          (fun c => (dls p d (forecast_move g c) false).1) α β hchild
          (legalMoves g) ⊥ ⊥ noMove α (sup_bot_eq α).symm hαβ
          (fun _ => le_refl ⊥) (fun h => absurd h (not_lt_bot))
        simp only [alphabetaNT, dls, if_neg hms, if_true, dlsMaxLoop_fst]
        exact hmain

/-- At the root window `(−∞, +∞)` the fail-soft guarantee collapses to
exact equality of the alpha-beta and plain-minimax scores. -/
theorem alphabetaNT_root_eq (p : Bool) (d : ℕ) (g : Game)
    (h : (g.active == p) = true) :
    (alphabetaNT p d g ⊥ ⊤ true).1 = (dls p d g true).1 := by
  obtain ⟨k1, k2, k3⟩ := alphabetaNT_KM d g p ⊥ ⊤ true bot_lt_top h.symm
  rcases le_or_lt (alphabetaNT p d g ⊥ ⊤ true).1 ⊥ with hb | hb
  · rw [le_bot_iff.1 hb, le_bot_iff.1 ((k1 hb).trans hb)]
  · rcases lt_or_le (alphabetaNT p d g ⊥ ⊤ true).1 ⊤ with ht | ht
    · exact k2 hb ht
    · rw [top_le_iff.1 ht, top_le_iff.1 ((k3 ht).trans' ht)]

/-! ### Timed alpha-beta refines the pure (no-timeout) semantics -/

lemma abMaxLoopT_ok_val
    (f : Cell → Score → ℕ → Except Unit ((Score × Move) × ℕ))
    (fNT : Cell → Score → Score × Move) (β : Score)
    (hf : ∀ c a k r k', f c a k = .ok (r, k') → r = fNT c a) :
    ∀ (cs : List Cell) (bv : Score) (bm : Move) (a : Score) (k : ℕ)
      (r : Score × Move) (k' : ℕ),
      abMaxLoopT f β cs bv bm a k = .ok (r, k') →
      r = abMaxLoopNT fNT β cs bv bm a := by
  intro cs
  induction cs with
  | nil =>
    intro bv bm a k r k' h
    simp only [abMaxLoopT] at h
    cases h
    rfl
  | cons c cs ih =>
    intro bv bm a k r k' h
    simp only [abMaxLoopT] at h
    cases hc : f c a k with
    | error e => rw [hc] at h; cases h
    | ok rk =>
      obtain ⟨rc, kc⟩ := rk
      rw [hc] at h
      have hrv : rc = fNT c a := hf c a k rc kc hc
      simp only [abMaxLoopNT, ← hrv]
      simp only at h
      by_cases hbr : β ≤ a ⊔ (if bv < rc.1 then rc.1 else bv)
      · rw [if_pos hbr] at h ⊢
        cases h
        rfl
      · rw [if_neg hbr] at h ⊢
        exact ih _ _ _ _ _ _ h

lemma abMinLoopT_ok_val
    (f : Cell → Score → ℕ → Except Unit ((Score × Move) × ℕ))
    (fNT : Cell → Score → Score × Move) (α : Score)
    (hf : ∀ c b k r k', f c b k = .ok (r, k') → r = fNT c b) :
    ∀ (cs : List Cell) (bv : Score) (bm : Move) (b : Score) (k : ℕ)
      (r : Score × Move) (k' : ℕ),
      abMinLoopT f α cs bv bm b k = .ok (r, k') →
      r = abMinLoopNT fNT α cs bv bm b := by
  intro cs
  induction cs with
  | nil =>
    intro bv bm b k r k' h
    simp only [abMinLoopT] at h
    cases h
    rfl
  | cons c cs ih =>
    intro bv bm b k r k' h
    simp only [abMinLoopT] at h
    cases hc : f c b k with
    | error e => rw [hc] at h; cases h
    | ok rk =>
      obtain ⟨rc, kc⟩ := rk
      rw [hc] at h
      have hrv : rc = fNT c b := hf c b k rc kc hc
      simp only [abMinLoopNT, ← hrv]
      simp only at h
      by_cases hbr : b ⊓ (if rc.1 < bv then rc.1 else bv) ≤ α
      · rw [if_pos hbr] at h ⊢
        cases h
        rfl
      · rw [if_neg hbr] at h ⊢
        exact ih _ _ _ _ _ _ h

/-- Whenever the timed `alphabeta` completes (no `Timeout`), it returns
exactly the pure `alphabetaNT` value, for ANY clock. -/
theorem alphabeta_ok_val (clock : ℕ → ℚ) (th : ℚ) (p : Bool) :
    ∀ (d : ℕ) (g : Game) (α β : Score) (maxP : Bool) (k : ℕ)
      (r : Score × Move) (k' : ℕ),
      alphabeta clock th p d g α β maxP k = .ok (r, k') →
      r = alphabetaNT p d g α β maxP := by
  intro d
  induction d with
  | zero =>
    intro g α β maxP k r k' h
    simp only [alphabeta] at h
    by_cases hc : clock k < th
    · rw [if_pos hc] at h; cases h
    · rw [if_neg hc] at h
      cases h
      rfl
  | succ d ih =>
    intro g α β maxP k r k' h
    simp only [alphabeta] at h
    by_cases hc : clock k < th
    · rw [if_pos hc] at h; cases h
    · rw [if_neg hc] at h
      by_cases hms : (legalMoves g).isEmpty
      · rw [if_pos hms] at h
        cases h
        simp only [alphabetaNT, if_pos hms]
      · rw [if_neg hms] at h
        cases maxP
        · simp only [if_neg Bool.false_ne_true] at h
          have := abMinLoopT_ok_val
            (fun c b k' => alphabeta clock th p d (forecast_move g c) α b true k')
            (fun c b => alphabetaNT p d (forecast_move g c) α b true) α
            (fun c b k r k' hk => ih (forecast_move g c) α b true k r k' hk)
            (legalMoves g) ⊤ noMove β (k + 1) r k' h
          simpa only [alphabetaNT, if_neg hms, if_neg Bool.false_ne_true] using this
        · simp only [if_true] at h
          have := abMaxLoopT_ok_val
            (fun c a k' => alphabeta clock th p d (forecast_move g c) a β false k')
            (fun c a => alphabetaNT p d (forecast_move g c) a β false) β
            (fun c a k r k' hk => ih (forecast_move g c) a β false k r k' hk)
            (legalMoves g) ⊥ noMove α (k + 1) r k' h
          simpa only [alphabetaNT, if_neg hms, if_true] using this

lemma abMaxLoopT_const_ok
    (f : Cell → Score → ℕ → Except Unit ((Score × Move) × ℕ))
    (fNT : Cell → Score → Score × Move) (β : Score)
    (hf : ∀ c a k, ∃ k', f c a k = .ok (fNT c a, k')) :
    ∀ (cs : List Cell) (bv : Score) (bm : Move) (a : Score) (k : ℕ),
      ∃ k', abMaxLoopT f β cs bv bm a k = .ok (abMaxLoopNT fNT β cs bv bm a, k') := by
  intro cs
  induction cs with
  | nil => intro bv bm a k; exact ⟨k, rfl⟩
  | cons c cs ih =>
    intro bv bm a k
    obtain ⟨kc, hkc⟩ := hf c a k
    simp only [abMaxLoopT, abMaxLoopNT, hkc]
    by_cases hbr : β ≤ a ⊔ (if bv < (fNT c a).1 then (fNT c a).1 else bv)
    · rw [if_pos hbr, if_pos hbr]
      exact ⟨kc, rfl⟩
    · rw [if_neg hbr, if_neg hbr]
      exact ih _ _ _ kc

lemma abMinLoopT_const_ok
    (f : Cell → Score → ℕ → Except Unit ((Score × Move) × ℕ))
    (fNT : Cell → Score → Score × Move) (α : Score)
    (hf : ∀ c b k, ∃ k', f c b k = .ok (fNT c b, k')) :
    ∀ (cs : List Cell) (bv : Score) (bm : Move) (b : Score) (k : ℕ),
      ∃ k', abMinLoopT f α cs bv bm b k = .ok (abMinLoopNT fNT α cs bv bm b, k') := by
  intro cs
  induction cs with
  | nil => intro bv bm b k; exact ⟨k, rfl⟩
  | cons c cs ih =>
    intro bv bm b k
    obtain ⟨kc, hkc⟩ := hf c b k
    simp only [abMinLoopT, abMinLoopNT, hkc]
    by_cases hbr : b ⊓ (if (fNT c b).1 < bv then (fNT c b).1 else bv) ≤ α
    · rw [if_pos hbr, if_pos hbr]
      exact ⟨kc, rfl⟩
    · rw [if_neg hbr, if_neg hbr]
      exact ih _ _ _ kc

/-- With a constant clock at or above the threshold, the timed `alphabeta`
never raises and computes the pure value. -/
theorem alphabeta_const_ok (c th : ℚ) (hth : th ≤ c) (p : Bool) :
    ∀ (d : ℕ) (g : Game) (α β : Score) (maxP : Bool) (k : ℕ),
      ∃ k', alphabeta (fun _ => c) th p d g α β maxP k
        = .ok (alphabetaNT p d g α β maxP, k') := by
  have hnc : ¬ c < th := not_lt.2 hth
  intro d
  induction d with
  | zero =>
    intro g α β maxP k
    exact ⟨k + 1, by simp only [alphabeta, alphabetaNT, if_neg hnc]⟩
  | succ d ih =>
    intro g α β maxP k
    by_cases hms : (legalMoves g).isEmpty
    · exact ⟨k + 1, by simp only [alphabeta, alphabetaNT, if_neg hnc, if_pos hms]⟩
    · cases maxP
      · obtain ⟨k', hk'⟩ := abMinLoopT_const_ok
          (fun c' b k' => alphabeta (fun _ => c) th p d (forecast_move g c') α b true k')
          (fun c' b => alphabetaNT p d (forecast_move g c') α b true) α
          (fun c' b k' => ih (forecast_move g c') α b true k')
          (legalMoves g) ⊤ noMove β (k + 1)
        refine ⟨k', ?_⟩
        simp only [alphabeta, alphabetaNT, if_neg hnc, if_neg hms,
          if_neg Bool.false_ne_true]
        exact hk'
      · obtain ⟨k', hk'⟩ := abMaxLoopT_const_ok
          (fun c' a k' => alphabeta (fun _ => c) th p d (forecast_move g c') a β false k')
          (fun c' a => alphabetaNT p d (forecast_move g c') a β false) β
          (fun c' a k' => ih (forecast_move g c') a β false k')
          (legalMoves g) ⊥ noMove α (k + 1)
        refine ⟨k', ?_⟩
        simp only [alphabeta, alphabetaNT, if_neg hnc, if_neg hms, if_true]
        exact hk'

/-- With a constant clock, the timed `alphabeta` raises `Timeout` exactly
when the remaining time is STRICTLY below the threshold. -/
theorem alphabeta_const_err (c th : ℚ) (p : Bool) (d : ℕ) (g : Game)
    (α β : Score) (maxP : Bool) (k : ℕ) :
    alphabeta (fun _ => c) th p d g α β maxP k = .error () ↔ c < th := by
  constructor
  · intro h
    by_contra hnc
    obtain ⟨k', hk'⟩ := alphabeta_const_ok c th (not_lt.1 hnc) p d g α β maxP k
    rw [h] at hk'
    cases hk'
  · intro h
    cases d <;> simp only [alphabeta, if_pos h]

/-- `minimax` raises `Timeout` exactly when its single entry poll sees a
value strictly below the threshold; `dls` itself never polls. -/
theorem minimax_err (clock : ℕ → ℚ) (th : ℚ) (p : Bool) (g : Game) (d : ℕ)
    (maxP : Bool) (k : ℕ) :
    minimax clock th p g d maxP k = .error () ↔ clock k < th := by
  unfold minimax
  by_cases h : clock k < th
  · simp [h]
  · simp [h]

/-! ### The iterative deepening loop -/

/-- If the per-depth searches complete for depths `1..d` (with the stated
results and poll counters) and the depth `d+1` search raises `Timeout`,
the iterative loop started at depth `j+1 ≤ d` returns the move of depth
`d` — the last completed depth. -/
lemma iterSearch_reaches (S : ℕ → ℕ → Except Unit ((Score × Move) × ℕ))
    (ks : ℕ → ℕ) (vs : ℕ → Score) (msv : ℕ → Move) (d : ℕ)
    (hok : ∀ i, i < d → S (i + 1) (ks i) = .ok ((vs i, msv i), ks (i + 1)))
    (herr : S (d + 1) (ks d) = .error ()) :
    ∀ (fuel j : ℕ) (best : Option Move), j < d → d - j < fuel →
      iterSearch S fuel j (ks j) best = .ok (some (msv (d - 1))) := by
  intro fuel
  induction fuel with
  | zero => intro j best hj hf; omega
  | succ fuel ih =>
    intro j best hj hf
    simp only [iterSearch, hok j hj]
    rcases Nat.lt_or_ge (j + 1) d with hlt | hge
    · exact ih (j + 1) (some (msv j)) hlt (by omega)
    · have hjd : j + 1 = d := by omega
      have hj1 : j = d - 1 := by omega
      cases fuel with
      | zero => omega
      | succ fuel =>
        rw [hjd]
        simp only [iterSearch, herr]
        rw [hj1]

lemma not_beq_self (p : Bool) : ((!p) == p) = false := by cases p <;> decide

lemma search_step_ok_val (P : CustomPlayer) (clock : ℕ → ℚ) (g : Game)
    (d k : ℕ) (r : Score × Move) (k' : ℕ)
    (h : search_step P clock g d k = .ok (r, k')) :
    r = fixed_depth_result P g d := by
  unfold search_step at h
  unfold fixed_depth_result
  by_cases hm : P.method = "minimax"
  · rw [if_pos hm] at h
    rw [if_pos hm]
    unfold minimax at h
    by_cases hc : clock k < P.TIMER_THRESHOLD
    · rw [if_pos hc] at h; cases h
    · rw [if_neg hc, Except.ok.injEq, Prod.mk.injEq] at h
      exact h.1.symm
  · rw [if_neg hm] at h
    rw [if_neg hm]
    exact alphabeta_ok_val clock P.TIMER_THRESHOLD g.active d g (toScore 1) ⊤ true k r k' h

lemma search_step_const_ok (P : CustomPlayer) (g : Game) (d k : ℕ) (c : ℚ)
    (hc : P.TIMER_THRESHOLD ≤ c) :
    ∃ k', search_step P (fun _ => c) g d k = .ok (fixed_depth_result P g d, k') := by
  unfold search_step fixed_depth_result
  by_cases hm : P.method = "minimax"
  · rw [if_pos hm, if_pos hm]
    exact ⟨k + 1, by unfold minimax; rw [if_neg (not_lt.2 hc)]⟩
  · rw [if_neg hm, if_neg hm]
    exact alphabeta_const_ok c _ hc g.active d g (toScore 1) ⊤ true k

/-! ### The claims -/

/-- Claim C1 (confirmed): for every game state, every depth, and any time
budget never below the threshold (so no `Timeout` is raised), the score
returned by the alpha-beta search called at the root — alpha `⊥` (−∞),
beta `⊤` (+∞), maximizing, designated player = the player to move — equals
the score plain minimax (`minimax` = one poll + `dls`) returns at the same
state and depth with the maximizing flag set. -/
theorem c1_alphabeta_root_score_eq_minimax (g : Game) (d : ℕ) (c th : ℚ)
    (k : ℕ) (hth : th ≤ c) :
    (alphabetaNT g.active d g ⊥ ⊤ true).1 = (dls g.active d g true).1 ∧
    minimax (fun _ => c) th g.active g d true k = .ok (dls g.active d g true, k + 1) ∧
    ∃ k', alphabeta (fun _ => c) th g.active d g ⊥ ⊤ true k
      = .ok (alphabetaNT g.active d g ⊥ ⊤ true, k') := by
  refine ⟨alphabetaNT_root_eq g.active d g (by simp), ?_,
    alphabeta_const_ok c th hth g.active d g ⊥ ⊤ true k⟩
  unfold minimax
  rw [if_neg (not_lt.2 hth)]

/-- Witness for C1 at the concrete position `gB`, depth 2, threshold 0,
remaining time 1. -/
theorem c1_witness :
    (0 : ℚ) ≤ 1 ∧
    ((alphabetaNT gB.active 2 gB ⊥ ⊤ true).1 = (dls gB.active 2 gB true).1 ∧
     minimax (fun _ => (1 : ℚ)) 0 gB.active gB 2 true 0
       = .ok (dls gB.active 2 gB true, 0 + 1) ∧
     ∃ k', alphabeta (fun _ => (1 : ℚ)) 0 gB.active 2 gB ⊥ ⊤ true 0
       = .ok (alphabetaNT gB.active 2 gB ⊥ ⊤ true, k')) :=
  ⟨by norm_num, c1_alphabeta_root_score_eq_minimax gB 2 1 0 0 (by norm_num)⟩

/-- Claim C2 (code bug): at the concrete position `gB` (5×5 board, 10
blank / 15 occupied cells, own moves 1, opponent moves 5, distance 3) the
default heuristic returns `1 + 3 − 10/25 − 5`, subtracting the BLANK-cell
fraction `10/25`, not `1 + 3 − 15/25 − 5` as the claim's occupied-cell
fraction (`15/25`) would give — `percent_occupation` contradicts its own
docstring. -/
theorem c2_third_heuristic_subtracts_blank_fraction :
    third_heuristic gB true = 1 + 3 - (10 : ℚ)/25 - 5 ∧
    third_heuristic gB true ≠ 1 + 3 - (15 : ℚ)/25 - 5 := by
  constructor
  · with_unfolding_all decide
  · with_unfolding_all decide

/-- Claim C3, counterexample: with the remaining time EQUAL to the
threshold (10 = 10, i.e. "at" the threshold), the claim says a `Timeout`
must be raised, but both `minimax` and `alphabeta` complete normally —
the source condition is strict `<`. -/
theorem c3_counterexample_at_threshold :
    minimax (fun _ => (10 : ℚ)) 10 gB.active gB 1 true 0
      = .ok (dls gB.active 1 gB true, 1) ∧
    ∃ k', alphabeta (fun _ => (10 : ℚ)) 10 gB.active 1 gB ⊥ ⊤ true 0
      = .ok (alphabetaNT gB.active 1 gB ⊥ ⊤ true, k') := by
  constructor
  · unfold minimax
    rw [if_neg (by norm_num : ¬ (10 : ℚ) < 10)]
  · exact alphabeta_const_ok 10 10 le_rfl gB.active 1 gB ⊥ ⊤ true 0

/-- Claim C3 as amended: with a constant remaining time, a `Timeout` is
raised iff the remaining time is STRICTLY below the threshold; `alphabeta`
polls first at every node, while in minimax mode only the top-level
`minimax` entry polls — its `dls` recursion (a pure function in this
embedding, mirroring the source, which never consults `self.time_left`
inside `dls`) performs no polling at inner nodes or the depth-0 base
case. -/
theorem c3_timeout_iff_strictly_below (g : Game) (p : Bool) (d : ℕ)
    (α β : Score) (maxP : Bool) (c th : ℚ) (k : ℕ) :
    (minimax (fun _ => c) th p g d maxP k = .error () ↔ c < th) ∧
    (alphabeta (fun _ => c) th p d g α β maxP k = .error () ↔ c < th) :=
  ⟨minimax_err (fun _ => c) th p g d maxP k,
   alphabeta_const_err c th p d g α β maxP k⟩

/-- Claim C4 (code bug): at `gC4` the minimizing layer has exactly one
legal move `(2,2)` whose child score (`⊥`) strictly improves the running
best (`⊤`), yet the returned move is the sentinel `(-1,-1)` — the source
assigns `bestMove = move` (the move returned by the recursive call) rather
than `bestMove = child`, so the minimizing node does not return one of its
own legal moves. -/
theorem c4_min_layer_returns_foreign_move :
    (alphabetaNT true 1 gC4 ⊥ ⊤ false).2 = noMove ∧
    legalMoves gC4 = [(2, 2)] ∧
    noMove ∉ legalMoves gC4 := by
  refine ⟨?_, by decide, by decide⟩
  with_unfolding_all decide

/-- Claim C5 (code bug): when the remaining time is below the threshold
from the start, the very first search depth raises `Timeout` before any
depth completes; `get_move` catches it and returns its initial
`move = None` — Python `None`, not the sentinel `(-1, -1)` the claim
promises. -/
theorem c5_first_depth_timeout_returns_none :
    get_move Pmm gB [(2, 1)] (fun _ => 0) 5 0 = .ok none ∧
    (Except.ok none : Except Unit (Option Move)) ≠ .ok (some noMove) := by
  constructor
  · with_unfolding_all rfl
  · intro h
    rw [Except.ok.injEq] at h
    cases h

/-- Claim C6 (confirmed): with iterative deepening on and a recognized
method, if the dispatched searches complete depths `1..d` and the depth
`d+1` search raises `Timeout`, then `get_move` returns the move produced
by depth `d` — the last completed depth — and that move is exactly what a
single fixed-depth search at depth `d` (via `get_move` with
`iterative = False`, `search_depth = d`, and any non-expiring clock) would
return on the same root state: no partial-depth result leaks. -/
theorem c6_iterative_matches_last_completed_fixed_depth
    (P : CustomPlayer) (g : Game) (legal : List Move) (clock : ℕ → ℚ)
    (fuel k d : ℕ) (ks : ℕ → ℕ) (vs : ℕ → Score) (msv : ℕ → Move)
    (hmeth : P.method = "minimax" ∨ P.method = "alphabeta")
    (hiter : P.iterative = true)
    (hlegal : legal.isEmpty = false)
    (hnotfirst : ¬ ((legalMoves g).length : ℤ) = g.width * g.height)
    (hd : 1 ≤ d) (hfuel : d < fuel) (hk0 : ks 0 = k)
    (hok : ∀ i, i < d → search_step P clock g (i + 1) (ks i)
      = .ok ((vs i, msv i), ks (i + 1)))
    (herr : search_step P clock g (d + 1) (ks d) = .error ()) :
    get_move P g legal clock fuel k = .ok (some (msv (d - 1))) ∧
    msv (d - 1) = (fixed_depth_result P g d).2 ∧
    ∀ (c' : ℚ) (k' fuel' : ℕ), P.TIMER_THRESHOLD ≤ c' →
      get_move { P with iterative := false, search_depth := d } g legal
        (fun _ => c') fuel' k' = .ok (some (msv (d - 1))) := by
  have hd1 : d - 1 + 1 = d := by omega
  have hokd := hok (d - 1) (by omega)
  rw [hd1] at hokd
  have hres : (vs (d - 1), msv (d - 1)) = fixed_depth_result P g d :=
    search_step_ok_val P clock g d (ks (d - 1)) _ _ hokd
  have hmv : msv (d - 1) = (fixed_depth_result P g d).2 := by rw [← hres]
  refine ⟨?_, hmv, ?_⟩
  · have hunf : get_move P g legal clock fuel k
        = iterSearch (search_step P clock g) fuel 0 k none := by
      unfold get_move
      rw [if_neg (by rw [hlegal]; exact Bool.false_ne_true), if_neg hnotfirst,
        if_pos hmeth, if_pos hiter]
    rw [hunf, ← hk0]
    exact iterSearch_reaches (search_step P clock g) ks vs msv d hok herr
      fuel 0 none (by omega) (by omega)
  · intro c' k' fuel' hc'
    obtain ⟨k'', hk''⟩ := search_step_const_ok
      { P with iterative := false, search_depth := d } g d k' c' hc'
    unfold get_move
    rw [if_neg (by rw [hlegal]; exact Bool.false_ne_true), if_neg hnotfirst,
      if_pos (by exact hmeth), if_neg (by exact Bool.false_ne_true)]
    rw [hk'']
    show Except.ok (some (fixed_depth_result P g d).2) = _
    rw [hmv]

/-- Witness for C6: on `gB` with the `clock6` clock and method
`'minimax'`, depths 1 and 2 complete and depth 3 times out; `get_move`
returns depth 2's move. -/
theorem c6_witness :
    1 ≤ 2 ∧
    get_move Pmm gB [(2, 1)] clock6 9 0 = .ok (some ((res6 1).2)) :=
  ⟨by norm_num,
   (c6_iterative_matches_last_completed_fixed_depth Pmm gB [(2, 1)] clock6 9 0 2
      (fun i => i) (fun i => (res6 i).1) (fun i => (res6 i).2)
      (Or.inl rfl) rfl rfl (by decide) (by norm_num) (by norm_num) rfl
      (by
        intro i hi
        interval_cases i
        · with_unfolding_all rfl
        · with_unfolding_all rfl)
      (by with_unfolding_all rfl)).1⟩

/-- Claim C7 (confirmed): if the designated player has already lost
(`is_loser`: they are to move with no legal moves) the evaluation function
returns `⊥` (−∞); if the opponent has already lost (`is_winner` for the
designated player), it returns `⊤` (+∞); the branch structure of
`custom_score` takes these returns before `third_heuristic` is ever
evaluated. -/
theorem c7_terminal_shortcut (g : Game) (p : Bool) :
    (is_loser g p = true → custom_score g p = ⊥) ∧
    (is_winner g p = true → custom_score g p = ⊤) := by
  constructor
  · intro h
    unfold custom_score
    rw [if_pos h]
  · intro h
    have hl : is_loser g p = false := by
      unfold is_winner at h
      rw [Bool.and_eq_true] at h
      have hap : g.active = !p := by
        have h1 := h.1
        rwa [beq_iff_eq] at h1
      unfold is_loser
      rw [hap, not_beq_self, Bool.false_and]
    unfold custom_score
    rw [if_neg (by rw [hl]; exact Bool.false_ne_true), if_pos h]

/-- Witness for C7 at `gW`, where player 1 is to move with no moves. -/
theorem c7_witness :
    is_loser gW true = true ∧ custom_score gW true = ⊥ :=
  ⟨by decide, (c7_terminal_shortcut gW true).1 (by decide)⟩

/-- Claim C8 (code bug): at `gB` the mobility-ratio heuristic returns
`1 / (10/25) = 5/2`, dividing by the BLANK-cell fraction, not
`1 / (15/25) = 5/3` as the claim's occupied-cell fraction would give. -/
theorem c8_second_heuristic_divides_by_blank_fraction :
    second_heuristic gB true = (5 : ℚ)/2 ∧
    second_heuristic gB true ≠ (5 : ℚ)/3 := by
  constructor
  · with_unfolding_all decide
  · with_unfolding_all decide

/-- Claim C9 (confirmed): given an empty legal-move list, `get_move`
returns the sentinel `(-1,-1)` immediately; and when the number of current
legal moves equals the board's total cell count (the very first move),
`get_move` returns the board's center cell `(width/2, height/2)` without
dispatching to any search. -/
theorem c9_empty_sentinel_and_opening_center (P : CustomPlayer) (g : Game)
    (legal : List Move) (clock : ℕ → ℚ) (fuel k : ℕ) :
    get_move P g [] clock fuel k = .ok (some noMove) ∧
    (legal.isEmpty = false →
      ((legalMoves g).length : ℤ) = g.width * g.height →
      get_move P g legal clock fuel k = .ok (some (center g))) := by
  constructor
  · rfl
  · intro h1 h2
    unfold get_move
    rw [if_neg (by rw [h1]; exact Bool.false_ne_true), if_pos h2]

/-- Witness for C9: a fresh 7×7 board with all 49 cells blank yields the
center cell `(3,3)`. -/
theorem c9_witness :
    (allCells 7 7).isEmpty = false ∧
    ((legalMoves g7).length : ℤ) = g7.width * g7.height ∧
    get_move Pmm g7 (allCells 7 7) (fun _ => 100) 3 0 = .ok (some (center g7)) ∧
    center g7 = (3, 3) :=
  ⟨by decide, by decide,
   (c9_empty_sentinel_and_opening_center Pmm g7 (allCells 7 7) (fun _ => 100) 3 0).2
     (by decide) (by decide),
   by decide⟩

/-- Claim C10 (confirmed): with a method string other than `'minimax'` or
`'alphabeta'`, a non-empty legal-move list, and a non-opening position,
`get_move` raises (the dispatched search callable stayed `None` and is
invoked) instead of returning a move. -/
theorem c10_unrecognized_method_raises (P : CustomPlayer) (g : Game)
    (legal : List Move) (clock : ℕ → ℚ) (fuel k : ℕ)
    (h1 : P.method ≠ "minimax") (h2 : P.method ≠ "alphabeta")
    (h3 : legal.isEmpty = false)
    (h4 : ¬ ((legalMoves g).length : ℤ) = g.width * g.height) :
    get_move P g legal clock fuel k = .error () := by
  unfold get_move
  rw [if_neg (by rw [h3]; exact Bool.false_ne_true), if_neg h4,
    if_neg (by rintro (h | h); exacts [h1 h, h2 h])]

/-- Witness for C10 with the method string `'dfs'`. -/
theorem c10_witness :
    Pbad.method ≠ "minimax" ∧ Pbad.method ≠ "alphabeta" ∧
    get_move Pbad gB [(2, 1)] (fun _ => 100) 3 0 = .error () :=
  ⟨by decide, by decide,
   c10_unrecognized_method_raises Pbad gB [(2, 1)] (fun _ => 100) 3 0
     (by decide) (by decide) rfl (by decide)⟩
